import Mathlib

/-!
Shallow embedding of the playlist-maintenance script `update_m3u.py`.

The script has three stages: extracting the authoritative server base and the
channel paths from an M3U playlist, probing candidate servers against those
paths, and rewriting the server base across the playlist.  File contents are
modelled as lists of line strings, and each HTTP probe is modelled as an
abstract function from the requested URL to its outcome.  Python regular
expression matching is embedded as executable functions over character lists;
the character class of the regex digit escape is modelled as the ASCII digits
and case-insensitive matching lowercases both sides, which agrees with the
ASCII data the script operates on.
-/

/-- The ASCII whitespace characters removed by the Python string strip method. -/
def pyIsSpace (c : Char) : Bool :=
  c == ' ' || c == '\t' || c == '\n' || c == '\r' || c == '\x0b' || c == '\x0c'

/-- Trim whitespace from both ends of a character list, as the strip method does. -/
def pyStripList (l : List Char) : List Char :=
  ((l.dropWhile pyIsSpace).reverse.dropWhile pyIsSpace).reverse

/-- String wrapper for `pyStripList`. -/
def pyStrip (s : String) : String := ⟨pyStripList s.data⟩

/-- Remove trailing slash characters, as rstrip with a slash argument does. -/
def rstripSlashList (l : List Char) : List Char :=
  (l.reverse.dropWhile (fun c => c == '/')).reverse

/-- String wrapper for `rstripSlashList`. -/
def rstripSlashStr (s : String) : String := ⟨rstripSlashList s.data⟩

/-- Embedding of load_servers: keep lines that are non-blank after trimming,
and normalize each kept line by trimming whitespace and trailing slashes. -/
def load_servers (lines : List String) : List String :=
  (lines.filter (fun l => decide (pyStrip l ≠ ""))).map
    (fun l => rstripSlashStr (pyStrip l))

/-- The configured target domain of the script. -/
def TARGET_DOMAIN : String := "moveonjoy.com"

/-- Match a regex literal at the head of a text, where the dot character of the
pattern acts as the regex wildcard (any character except newline) and every
other pattern character matches itself.  Returns the remaining text. -/
def reLitMatch : List Char → List Char → Option (List Char)
  | [], cs => some cs
  | _ :: _, [] => none
  | p :: ps, c :: cs =>
    if p = '.' then (if c = '\n' then none else reLitMatch ps cs)
    else if p = c then reLitMatch ps cs else none

/-- Embedding of the domain filter: search for the target domain,
used as an (unescaped) regex, anywhere in the line. -/
def domainSearch : List Char → Bool
  | [] => false
  | c :: rest => (reLitMatch TARGET_DOMAIN.data (c :: rest)).isSome || domainSearch rest

/-- Consume an exact literal at the head of the text, returning the rest. -/
def litDrop (lit cs : List Char) : Option (List Char) :=
  if lit.isPrefixOf cs then some (cs.drop lit.length) else none

/-- Greedy search for the end of the second regex group: the largest cut
point k (at least one consumed character, all of them newline-free, as the
regex dot-plus requires) after which the literal m3u8 suffix follows. -/
def lastM3u8 (t : List Char) : Option Nat :=
  (List.range' 1 (t.takeWhile (fun c => c != '\n')).length).reverse.find?
    (fun k => ['.', 'm', '3', 'u', '8'].isPrefixOf (t.drop k))

/-- Attempt the link regex of extract_channel_paths at the current position:
scheme, an fl subdomain with a nonempty maximal digit run, the escaped target
domain, then the path group ending in the m3u8 extension.  Returns the two
capture groups (base, path) of the leftmost-greedy match. -/
def matchLinkAt (cs : List Char) : Option (List Char × List Char) :=
  match litDrop ['h', 't', 't', 'p'] cs with
  | none => none
  | some r1 =>
    match (if ['s', ':', '/', '/'].isPrefixOf r1 then some (['s'], r1.drop 4)
           else if [':', '/', '/'].isPrefixOf r1 then some (([] : List Char), r1.drop 3)
           else none) with
    | none => none
    | some (sC, r2) =>
      match litDrop ['f', 'l'] r2 with
      | none => none
      | some r3 =>
        match r3.takeWhile Char.isDigit with
        | [] => none
        | d :: ds =>
          match litDrop ('.' :: TARGET_DOMAIN.data) (r3.drop (d :: ds).length) with
          | none => none
          | some r5 =>
            match r5 with
            | '/' :: t =>
              match lastM3u8 t with
              | none => none
              | some k =>
                some ('h' :: 't' :: 't' :: 'p' ::
                        (sC ++ [':', '/', '/', 'f', 'l'] ++ (d :: ds) ++ '.' :: TARGET_DOMAIN.data),
                      '/' :: (t.take k ++ ['.', 'm', '3', 'u', '8']))
            | _ => none

/-- Leftmost regex search: try the link pattern at each position in turn
(at the final, empty position the pattern fails anyway). -/
def searchLink : List Char → Option (List Char × List Char)
  | [] => matchLinkAt []
  | c :: rest =>
    match matchLinkAt (c :: rest) with
    | some r => some r
    | none => searchLink rest

/-- The per-line extraction of the script: the line must pass the domain
filter and then the link regex search; on success the two groups are returned. -/
def lineLink (line : String) : Option (String × String) :=
  if domainSearch line.data then
    match searchLink line.data with
    | none => none
    | some (b, p) => some (⟨b⟩, ⟨p⟩)
  else none

/-- One loop iteration of extract_channel_paths: a matching line records the
base (first match only, stripped of trailing slashes) and adds its path to the
accumulated path collection when not already present. -/
def extract_step (st : List String × String) (line : String) : List String × String :=
  match lineLink line with
  | none => st
  | some (b, p) =>
    ((if p ∈ st.1 then st.1 else st.1 ++ [p]),
     if st.2 = "" then rstripSlashStr b else st.2)

/-- Embedding of extract_channel_paths: fold the per-line step over the
playlist; when no base was found return the empty result pair. -/
def extract_channel_paths (lines : List String) : List String × String :=
  let r := lines.foldl extract_step ([], "")
  if r.2 = "" then ([], "") else r

/-- Outcome of one HTTP probe: a status code, or a transport failure
(the request-exception branch of the script). -/
inductive ProbeOutcome where
  | status : Nat → ProbeOutcome
  | netError : ProbeOutcome
deriving DecidableEq

/-- The configured cap on how many fully working servers to collect. -/
def MAX_WORKING_SERVERS_TO_FIND : Nat := 10

/-- Inner loop of check_server_health for one candidate server: probe each
path in turn, stopping at the first outcome that is not status 200.  Returns
the working flag together with the list of URLs actually probed. -/
def check_paths (probe : String → ProbeOutcome) (server : String) :
    List String → Bool × List String
  | [] => (true, [])
  | p :: rest =>
    match probe (server ++ p) with
    | ProbeOutcome.status code =>
      if code ≠ 200 then (false, [server ++ p])
      else
        let r := check_paths probe server rest
        (r.1, (server ++ p) :: r.2)
    | ProbeOutcome.netError => (false, [server ++ p])

/-- Outer loop of check_server_health: accumulate working servers, stopping
once the cap is reached.  Returns the working servers, the candidates that
were actually considered, and the URLs actually probed. -/
def csh_aux (probe : String → ProbeOutcome) (test_paths : List String) (acc : List String) :
    List String → List String × List String × List String
  | [] => (acc, [], [])
  | server :: rest =>
    let c := check_paths probe server test_paths
    if c.1 then
      let acc2 := acc ++ [server]
      if MAX_WORKING_SERVERS_TO_FIND ≤ acc2.length then (acc2, [server], c.2)
      else
        let t := csh_aux probe test_paths acc2 rest
        (t.1, server :: t.2.1, c.2 ++ t.2.2)
    else
      let t := csh_aux probe test_paths acc rest
      (t.1, server :: t.2.1, c.2 ++ t.2.2)

/-- Embedding of check_server_health: the list of working servers found. -/
def check_server_health (probe : String → ProbeOutcome)
    (server_list test_paths : List String) : List String :=
  (csh_aux probe test_paths [] server_list).1

/-- Python substring containment, the binary in operator on strings. -/
def listContains (pat : List Char) : List Char → Bool
  | [] => pat.isEmpty
  | c :: rest => pat.isPrefixOf (c :: rest) || listContains pat rest

/-- Case-sensitive substring test used as the per-line gate of the rewriter. -/
def csContains (pat s : String) : Bool := listContains pat.data s.data

/-- Case-insensitive substring test (for stating the spec claim about
case-insensitive comparison). -/
def ciContains (pat s : String) : Bool :=
  listContains (pat.data.map Char.toLower) (s.data.map Char.toLower)

/-- Case-insensitive literal match at the head of the text, as the ignorecase
regex flag behaves on ASCII data. -/
def ciStartsWith : List Char → List Char → Bool
  | [], _ => true
  | _ :: _, [] => false
  | a :: as, b :: bs => (a.toLower == b.toLower) && ciStartsWith as bs

/-- Regex substitution of an escaped literal pattern under ignorecase: scan
left to right, replace each non-overlapping leftmost occurrence, and continue
after the matched region.  The scan consumes at least one character per step,
so it is driven by a fuel bounded by the text length; the zero-fuel case is
unreachable when the fuel starts at the text length.  Only invoked with a
nonempty pattern, since the rewriter aborts on an empty base. -/
def isubFuel (pat new : List Char) : Nat → List Char → List Char
  | _, [] => []
  | 0, s => s
  | fuel + 1, c :: rest =>
    if ciStartsWith pat (c :: rest) then
      new ++ isubFuel pat new fuel (rest.drop (pat.length - 1))
    else
      c :: isubFuel pat new fuel rest

/-- The substitution scan started with enough fuel for the whole text. -/
def isubAux (pat new s : List Char) : List Char := isubFuel pat new s.length s

/-- String wrapper for `isubAux`. -/
def isub (pat new s : String) : String := ⟨isubAux pat.data new.data s.data⟩

/-- One loop iteration of update_playlist: a line containing the old base
(case-sensitively) is substituted case-insensitively; the flag records whether
the substitution actually changed the line. -/
def processLine (base new l : String) : String × Bool :=
  if csContains base l then
    let nl := isub base new l
    if nl ≠ l then (nl, true) else (l, false)
  else (l, false)

/-- The rewrite loop of update_playlist: the new line sequence and whether any
replacement was made. -/
def upd_aux (base new : String) : List String → List String × Bool
  | [] => ([], false)
  | l :: rest =>
    let r := processLine base new l
    let t := upd_aux base new rest
    (r.1 :: t.1, r.2 || t.2)

/-- Embedding of update_playlist.  Result: the returned flag (true exactly
when the file was rewritten) and the final playlist file content, which is the
new line sequence when a replacement was made and the untouched input
otherwise (including the abort on an empty base). -/
def update_playlist (lines : List String) (base new : String) : Bool × List String :=
  if new = "" ∨ base = "" then (false, lines)
  else
    let r := upd_aux base new lines
    if r.2 then (true, r.1) else (false, lines)

/-- Embedding of main: extract, abort when no paths were found, load servers,
abort when none, probe, and rewrite only when the best working server differs
from the authoritative base.  Result: whether the playlist file was written,
and its final content. -/
def main_run (probe : String → ProbeOutcome) (playlist serverLines : List String) :
    Bool × List String :=
  let er := extract_channel_paths playlist
  if er.1 = [] then (false, playlist)
  else
    let all_servers := load_servers serverLines
    if all_servers = [] then (false, playlist)
    else
      match check_server_health probe all_servers er.1 with
      | [] => (false, playlist)
      | new_server :: _ =>
        if new_server = er.2 then (false, playlist)
        else update_playlist playlist er.2 new_server

/-- A probe for witnesses that reports every URL as live. -/
def probeAll200 : String → ProbeOutcome := fun _ => ProbeOutcome.status 200

/-- A probe for witnesses that reports a transport failure for every URL. -/
def probeNone : String → ProbeOutcome := fun _ => ProbeOutcome.netError

/-- A probe for witnesses where exactly one URL is live. -/
def probeOne : String → ProbeOutcome :=
  fun u => if u = "S/a" then ProbeOutcome.status 200 else ProbeOutcome.status 404

/-- Eleven candidate servers, one more than the cap, for the cap witness. -/
def serversEleven : List String :=
  ["s1", "s2", "s3", "s4", "s5", "s6", "s7", "s8", "s9", "s10", "s11"]

/-! ### Helper lemmas about slash stripping and the link pattern -/

theorem rstripSlashList_eq_nil_iff (l : List Char) :
    rstripSlashList l = [] ↔ ∀ c ∈ l, c = '/' := by
  simp [rstripSlashList, List.reverse_eq_nil_iff, List.dropWhile_eq_nil_iff, List.mem_reverse]

theorem matchLinkAt_base {cs b p : List Char} (h : matchLinkAt cs = some (b, p)) :
    ∃ t, b = 'h' :: t := by
  unfold matchLinkAt at h
  repeat' split at h
  all_goals first
  | (simp only [Option.some.injEq, Prod.mk.injEq] at h
     exact ⟨_, h.1.symm⟩)
  | simp at h

theorem searchLink_cons (c : Char) (rest : List Char) :
    searchLink (c :: rest) =
      match matchLinkAt (c :: rest) with
      | some r => some r
      | none => searchLink rest := rfl

theorem searchLink_base {cs b p : List Char} (h : searchLink cs = some (b, p)) :
    ∃ t, b = 'h' :: t := by
  induction cs with
  | nil =>
    rw [show searchLink [] = none from rfl] at h
    exact absurd h (by simp)
  | cons c rest ih =>
    rw [searchLink_cons] at h
    cases hm : matchLinkAt (c :: rest) with
    | some r =>
      rw [hm] at h
      exact matchLinkAt_base (hm.trans h)
    | none =>
      rw [hm] at h
      exact ih h

theorem lineLink_base {l : String} {b p : String} (h : lineLink l = some (b, p)) :
    ∃ t, b.data = 'h' :: t := by
  unfold lineLink at h
  split at h
  · split at h
    · exact absurd h (by simp)
    · next heq =>
      rw [Option.some.injEq, Prod.mk.injEq] at h
      obtain ⟨hb, _⟩ := h
      obtain ⟨t, ht⟩ := searchLink_base heq
      exact ⟨t, by rw [← hb]; exact ht⟩
  · exact absurd h (by simp)

theorem lineLink_base_ne {l b p : String} (h : lineLink l = some (b, p)) :
    rstripSlashStr b ≠ "" := by
  obtain ⟨t, ht⟩ := lineLink_base h
  intro he
  have hd : rstripSlashList b.data = [] := congrArg String.data he
  rw [ht, rstripSlashList_eq_nil_iff] at hd
  exact absurd (hd 'h' (List.mem_cons_self _ _)) (by decide)

/-! ### Helper lemmas about the extraction fold -/

theorem foldl_extract_base_stable (lines : List String) :
    ∀ st : List String × String, st.2 ≠ "" → (lines.foldl extract_step st).2 = st.2 := by
  induction lines with
  | nil => intro st _; rfl
  | cons l rest ih =>
    intro st h
    rw [List.foldl_cons]
    have hstep : (extract_step st l).2 = st.2 := by
      unfold extract_step
      split
      · rfl
      · exact if_neg h
    rw [ih _ (by rw [hstep]; exact h), hstep]

theorem foldl_extract_no_match (lines : List String) :
    ∀ st, (∀ l ∈ lines, lineLink l = none) → lines.foldl extract_step st = st := by
  induction lines with
  | nil => intro st _; rfl
  | cons l rest ih =>
    intro st h
    rw [List.foldl_cons]
    have h1 : extract_step st l = st := by
      unfold extract_step
      rw [h l (List.mem_cons_self _ _)]
    rw [h1]
    exact ih st (fun x hx => h x (List.mem_cons_of_mem _ hx))

theorem foldl_extract_first_base (lines : List String) :
    ∀ (st : List String × String) (l₀ b p : String), st.2 = "" →
      lines.find? (fun l => (lineLink l).isSome) = some l₀ →
      lineLink l₀ = some (b, p) →
      (lines.foldl extract_step st).2 = rstripSlashStr b := by
  induction lines with
  | nil => intro st l₀ b p _ hf _; simp at hf
  | cons l rest ih =>
    intro st l₀ b p hst hf hl
    rw [List.foldl_cons]
    cases hll : lineLink l with
    | none =>
      rw [List.find?_cons_of_neg _ (by simp [hll])] at hf
      have hstep : extract_step st l = st := by
        unfold extract_step
        rw [hll]
      rw [hstep]
      exact ih st l₀ b p hst hf hl
    | some bp =>
      rw [List.find?_cons_of_pos _ (by simp [hll])] at hf
      have hl0 : l = l₀ := by injection hf
      rw [← hl0] at hl
      have hsnd : (extract_step st l).2 = rstripSlashStr b := by
        unfold extract_step
        rw [hl]
        exact if_pos hst
      have hne : (extract_step st l).2 ≠ "" := by
        rw [hsnd]
        exact lineLink_base_ne hl
      rw [foldl_extract_base_stable rest _ hne, hsnd]

theorem mem_addPath (st1 : List String) (p1 q : String) :
    q ∈ (if p1 ∈ st1 then st1 else st1 ++ [p1]) ↔ q ∈ st1 ∨ q = p1 := by
  split
  · next hmem =>
    constructor
    · exact Or.inl
    · rintro (h | h)
      · exact h
      · rw [h]; exact hmem
  · simp [List.mem_append, List.mem_singleton]

theorem foldl_extract_mem (lines : List String) :
    ∀ (st : List String × String) (q : String),
      q ∈ (lines.foldl extract_step st).1 ↔
        q ∈ st.1 ∨ ∃ l ∈ lines, ∃ b2, lineLink l = some (b2, q) := by
  induction lines with
  | nil => intro st q; simp
  | cons l rest ih =>
    intro st q
    rw [List.foldl_cons, ih, List.exists_mem_cons_iff]
    cases hll : lineLink l with
    | none =>
      have hstep : extract_step st l = st := by
        unfold extract_step
        rw [hll]
      rw [hstep]
      simp [hll]
    | some bp =>
      obtain ⟨b1, p1⟩ := bp
      have hstep1 : (extract_step st l).1 = if p1 ∈ st.1 then st.1 else st.1 ++ [p1] := by
        unfold extract_step
        rw [hll]
      rw [hstep1, mem_addPath]
      simp only [hll, Option.some.injEq, Prod.mk.injEq]
      constructor
      · rintro ((h | h) | h)
        · exact Or.inl h
        · exact Or.inr (Or.inl ⟨b1, rfl, h.symm⟩)
        · exact Or.inr (Or.inr h)
      · rintro (h | ⟨b2, ⟨hb2, hq⟩⟩ | h)
        · exact Or.inl (Or.inl h)
        · exact Or.inl (Or.inr hq.symm)
        · exact Or.inr h

theorem foldl_extract_nodup (lines : List String) :
    ∀ st : List String × String, st.1.Nodup → (lines.foldl extract_step st).1.Nodup := by
  induction lines with
  | nil => intro st h; exact h
  | cons l rest ih =>
    intro st h
    rw [List.foldl_cons]
    apply ih
    unfold extract_step
    split
    · exact h
    · split
      · exact h
      · next hmem =>
        rw [List.nodup_append]
        refine ⟨h, List.nodup_singleton _, fun a ha hb => ?_⟩
        rw [List.mem_singleton] at hb
        rw [hb] at ha
        exact hmem ha

/-! ### Helper lemmas about the prober -/

theorem csh_aux_nil (probe : String → ProbeOutcome) (tp acc : List String) :
    csh_aux probe tp acc [] = (acc, [], []) := rfl

theorem csh_aux_cons (probe : String → ProbeOutcome) (tp acc : List String)
    (s : String) (rest : List String) :
    csh_aux probe tp acc (s :: rest) =
      if (check_paths probe s tp).1 then
        (if MAX_WORKING_SERVERS_TO_FIND ≤ (acc ++ [s]).length then
          (acc ++ [s], [s], (check_paths probe s tp).2)
        else
          ((csh_aux probe tp (acc ++ [s]) rest).1,
           s :: (csh_aux probe tp (acc ++ [s]) rest).2.1,
           (check_paths probe s tp).2 ++ (csh_aux probe tp (acc ++ [s]) rest).2.2))
      else
        ((csh_aux probe tp acc rest).1,
         s :: (csh_aux probe tp acc rest).2.1,
         (check_paths probe s tp).2 ++ (csh_aux probe tp acc rest).2.2) := rfl

theorem check_paths_true_iff (probe : String → ProbeOutcome) (server : String)
    (paths : List String) :
    (check_paths probe server paths).1 = true ↔
      ∀ p ∈ paths, probe (server ++ p) = ProbeOutcome.status 200 := by
  induction paths with
  | nil => simp [check_paths]
  | cons p rest ih =>
    cases hp : probe (server ++ p) with
    | status code =>
      by_cases hc : code = 200
      · subst hc
        simp [check_paths, hp, ih, List.forall_mem_cons]
      · simp [check_paths, hp, hc, List.forall_mem_cons]
    | netError => simp [check_paths, hp, List.forall_mem_cons]

theorem check_paths_trace (probe : String → ProbeOutcome) (server : String)
    (paths : List String) :
    (check_paths probe server paths).2 =
      ((paths.takeWhile fun p => decide (probe (server ++ p) = ProbeOutcome.status 200)) ++
        (paths.dropWhile fun p => decide (probe (server ++ p) = ProbeOutcome.status 200)).take 1).map
        (fun p => server ++ p) := by
  induction paths with
  | nil => simp [check_paths]
  | cons p rest ih =>
    cases hp : probe (server ++ p) with
    | status code =>
      by_cases hc : code = 200
      · subst hc
        simp [check_paths, hp, List.takeWhile_cons, List.dropWhile_cons, ih]
      · simp [check_paths, hp, hc, List.takeWhile_cons, List.dropWhile_cons]
    | netError => simp [check_paths, hp, List.takeWhile_cons, List.dropWhile_cons]

theorem csh_aux_working (probe : String → ProbeOutcome) (tp : List String) :
    ∀ (servers acc : List String),
      ∃ w, (csh_aux probe tp acc servers).1 = acc ++ w ∧ w.Sublist servers := by
  intro servers
  induction servers with
  | nil =>
    intro acc
    exact ⟨[], by simp [csh_aux_nil], List.nil_sublist _⟩
  | cons s rest ih =>
    intro acc
    rw [csh_aux_cons]
    by_cases hc : (check_paths probe s tp).1 = true
    · rw [if_pos hc]
      by_cases hm : MAX_WORKING_SERVERS_TO_FIND ≤ (acc ++ [s]).length
      · rw [if_pos hm]
        exact ⟨[s], rfl, List.Sublist.cons₂ s (List.nil_sublist rest)⟩
      · rw [if_neg hm]
        obtain ⟨w, hw, hsub⟩ := ih (acc ++ [s])
        exact ⟨s :: w, by rw [hw, List.append_assoc]; rfl, List.Sublist.cons₂ s hsub⟩
    · rw [if_neg hc]
      obtain ⟨w, hw, hsub⟩ := ih acc
      exact ⟨w, hw, List.Sublist.cons s hsub⟩

theorem csh_aux_length (probe : String → ProbeOutcome) (tp : List String) :
    ∀ (servers acc : List String), acc.length < MAX_WORKING_SERVERS_TO_FIND →
      (csh_aux probe tp acc servers).1.length ≤ MAX_WORKING_SERVERS_TO_FIND := by
  intro servers
  induction servers with
  | nil =>
    intro acc h
    rw [csh_aux_nil]
    exact Nat.le_of_lt h
  | cons s rest ih =>
    intro acc h
    rw [csh_aux_cons]
    by_cases hc : (check_paths probe s tp).1 = true
    · rw [if_pos hc]
      by_cases hm : MAX_WORKING_SERVERS_TO_FIND ≤ (acc ++ [s]).length
      · rw [if_pos hm]
        simp only [List.length_append, List.length_singleton]
        omega
      · rw [if_neg hm]
        refine ih (acc ++ [s]) ?_
        simp only [List.length_append, List.length_singleton] at hm ⊢
        omega
    · rw [if_neg hc]
      exact ih acc h

theorem csh_aux_considered (probe : String → ProbeOutcome) (tp : List String) :
    ∀ (servers acc : List String), acc.length < MAX_WORKING_SERVERS_TO_FIND →
      (csh_aux probe tp acc servers).2.1 <+: servers ∧
      ((csh_aux probe tp acc servers).2.1 ≠ servers →
        (csh_aux probe tp acc servers).1.length = MAX_WORKING_SERVERS_TO_FIND) := by
  intro servers
  induction servers with
  | nil =>
    intro acc _
    rw [csh_aux_nil]
    exact ⟨List.nil_prefix, fun h => absurd rfl h⟩
  | cons s rest ih =>
    intro acc h
    rw [csh_aux_cons]
    by_cases hc : (check_paths probe s tp).1 = true
    · rw [if_pos hc]
      by_cases hm : MAX_WORKING_SERVERS_TO_FIND ≤ (acc ++ [s]).length
      · rw [if_pos hm]
        refine ⟨⟨rest, rfl⟩, fun _ => ?_⟩
        simp only [List.length_append, List.length_singleton]
        simp only [List.length_append, List.length_singleton] at hm
        omega
      · rw [if_neg hm]
        have hlt : (acc ++ [s]).length < MAX_WORKING_SERVERS_TO_FIND := by
          simp only [List.length_append, List.length_singleton] at hm ⊢
          omega
        refine ⟨(List.prefix_cons_inj s).mpr (ih (acc ++ [s]) hlt).1, fun hne => ?_⟩
        refine (ih (acc ++ [s]) hlt).2 ?_
        intro heq
        exact hne (by rw [heq])
    · rw [if_neg hc]
      refine ⟨(List.prefix_cons_inj s).mpr (ih acc h).1, fun hne => ?_⟩
      refine (ih acc h).2 ?_
      intro heq
      exact hne (by rw [heq])

theorem csh_aux_no_paths (probe : String → ProbeOutcome) :
    ∀ (servers acc : List String), acc.length < MAX_WORKING_SERVERS_TO_FIND →
      csh_aux probe [] acc servers =
        (acc ++ servers.take (MAX_WORKING_SERVERS_TO_FIND - acc.length),
         servers.take (MAX_WORKING_SERVERS_TO_FIND - acc.length), []) := by
  intro servers
  induction servers with
  | nil =>
    intro acc _
    rw [csh_aux_nil]
    simp
  | cons s rest ih =>
    intro acc h
    rw [csh_aux_cons]
    have hck : (check_paths probe s []).1 = true := rfl
    rw [if_pos hck]
    by_cases hm : MAX_WORKING_SERVERS_TO_FIND ≤ (acc ++ [s]).length
    · rw [if_pos hm]
      have h1 : MAX_WORKING_SERVERS_TO_FIND - acc.length = 1 := by
        simp only [List.length_append, List.length_singleton] at hm
        omega
      rw [h1]
      rfl
    · rw [if_neg hm]
      have hlt : (acc ++ [s]).length < MAX_WORKING_SERVERS_TO_FIND := by
        simp only [List.length_append, List.length_singleton] at hm ⊢
        omega
      rw [ih (acc ++ [s]) hlt]
      have h2 : MAX_WORKING_SERVERS_TO_FIND - acc.length =
          (MAX_WORKING_SERVERS_TO_FIND - (acc ++ [s]).length) + 1 := by
        simp only [List.length_append, List.length_singleton]
        omega
      rw [h2, List.take_succ_cons, List.append_assoc]
      rfl

/-! ### Helper lemmas about the rewriter -/

theorem processLine_eq (base new l : String) :
    (processLine base new l = (l, false) ∧
      (csContains base l = false ∨ isub base new l = l)) ∨
    (processLine base new l = (isub base new l, true) ∧
      isub base new l ≠ l ∧ csContains base l = true) := by
  unfold processLine
  by_cases hg : csContains base l = true
  · rw [if_pos hg]
    by_cases he : isub base new l = l
    · left
      exact ⟨by rw [if_neg (not_not_intro he)], Or.inr he⟩
    · right
      exact ⟨by rw [if_pos he], he, hg⟩
  · left
    refine ⟨by rw [if_neg hg], Or.inl ?_⟩
    cases hb : csContains base l
    · rfl
    · exact absurd hb hg

theorem processLine_fst (base new l : String) :
    (processLine base new l).1 = if csContains base l then isub base new l else l := by
  rcases processLine_eq base new l with ⟨h, hside⟩ | ⟨h, _, hg⟩
  · rw [h]
    rcases hside with hs | hs
    · rw [if_neg (by rw [hs]; exact Bool.false_ne_true)]
    · by_cases hg : csContains base l = true
      · rw [if_pos hg, hs]
      · rw [if_neg hg]
  · rw [h, if_pos hg]

theorem processLine_snd_iff (base new l : String) :
    (processLine base new l).2 = true ↔
      csContains base l = true ∧ isub base new l ≠ l := by
  rcases processLine_eq base new l with ⟨h, hside⟩ | ⟨h, hne, hg⟩
  · rw [h]
    constructor
    · intro hf
      exact absurd hf (by simp)
    · rintro ⟨hg, hne⟩
      rcases hside with hs | hs
      · rw [hs] at hg
        exact absurd hg (by simp)
      · exact absurd hs hne
  · rw [h]
    simp [hg, hne]

theorem upd_aux_fst (base new : String) :
    ∀ lines, (upd_aux base new lines).1 =
      lines.map (fun l => if csContains base l then isub base new l else l) := by
  intro lines
  induction lines with
  | nil => rfl
  | cons l rest ih =>
    simp only [upd_aux, List.map_cons]
    rw [processLine_fst, ih]

theorem upd_aux_flag_false (base new : String) :
    ∀ lines, (upd_aux base new lines).2 = false → (upd_aux base new lines).1 = lines := by
  intro lines
  induction lines with
  | nil => intro _; rfl
  | cons l rest ih =>
    intro h
    simp only [upd_aux] at h ⊢
    rw [Bool.or_eq_false_iff] at h
    rcases processLine_eq base new l with ⟨hp, _⟩ | ⟨hp, _, _⟩
    · rw [hp]
      simp only []
      rw [ih h.2]
    · rw [hp] at h
      exact absurd h.1 (by simp)

theorem upd_aux_flag_iff (base new : String) :
    ∀ lines, (upd_aux base new lines).2 = true ↔
      ∃ l ∈ lines, csContains base l = true ∧ isub base new l ≠ l := by
  intro lines
  induction lines with
  | nil => simp [upd_aux]
  | cons l rest ih =>
    simp only [upd_aux, Bool.or_eq_true, List.exists_mem_cons_iff]
    rw [processLine_snd_iff, ih]

theorem update_playlist_no_gate (lines : List String) (base new : String)
    (h : ∀ l ∈ lines, csContains base l = false) :
    update_playlist lines base new = (false, lines) := by
  unfold update_playlist
  split
  · rfl
  · have hf : (upd_aux base new lines).2 = false := by
      cases hflag : (upd_aux base new lines).2
      · rfl
      · rw [upd_aux_flag_iff] at hflag
        obtain ⟨l, hl, hg, _⟩ := hflag
        rw [h l hl] at hg
        exact absurd hg (by simp)
    simp only [hf, Bool.false_eq_true, if_false]

/-! ### Claim C1 -/

/-- Claim C1, counterexample to the stated gate: this playlist line contains
the authoritative base under case-insensitive comparison, and replacing the
occurrence would change the line, yet the rewriter reports no change and
passes the line through unchanged, because its per-line gate is the
case-sensitive containment test. -/
theorem rewrite_ci_gate_cex :
    ciContains "http://fl1.moveonjoy.com" "HTTP://FL1.MOVEONJOY.COM/A.m3u8" = true ∧
    update_playlist ["HTTP://FL1.MOVEONJOY.COM/A.m3u8"]
        "http://fl1.moveonjoy.com" "http://fl2.moveonjoy.com" =
      (false, ["HTTP://FL1.MOVEONJOY.COM/A.m3u8"]) ∧
    isub "http://fl1.moveonjoy.com" "http://fl2.moveonjoy.com"
        "HTTP://FL1.MOVEONJOY.COM/A.m3u8" ≠
      "HTTP://FL1.MOVEONJOY.COM/A.m3u8" :=
  ⟨by decide, by decide, by decide⟩

/-- Claim C1 (amended): with both bases non-empty, the rewritten content is
obtained line by line; exactly the lines containing a case-sensitive literal
occurrence of the authoritative base have all case-insensitive occurrences of
it replaced by the new base, and every other line passes through unchanged. -/
theorem rewrite_line_map (lines : List String) (base new : String)
    (hn : new ≠ "") (hb : base ≠ "") :
    (update_playlist lines base new).2 =
      lines.map (fun l => if csContains base l then isub base new l else l) := by
  unfold update_playlist
  rw [if_neg (not_or.mpr ⟨hn, hb⟩)]
  show (if (upd_aux base new lines).2 = true then (true, (upd_aux base new lines).1)
        else (false, lines)).2 = _
  cases hflag : (upd_aux base new lines).2
  · simp only [Bool.false_eq_true, if_false]
    rw [← upd_aux_fst]
    exact (upd_aux_flag_false base new lines hflag).symm
  · simp only [if_true]
    exact upd_aux_fst base new lines

/-- Witness for the amended claim C1 at a concrete playlist. -/
theorem rewrite_line_map_witness :
    ("http://fl2.moveonjoy.com" : String) ≠ "" ∧
    ("http://fl1.moveonjoy.com" : String) ≠ "" ∧
    (update_playlist ["#X", "http://fl1.moveonjoy.com/A.m3u8"]
        "http://fl1.moveonjoy.com" "http://fl2.moveonjoy.com").2 =
      ["#X", "http://fl1.moveonjoy.com/A.m3u8"].map
        (fun l => if csContains "http://fl1.moveonjoy.com" l then
          isub "http://fl1.moveonjoy.com" "http://fl2.moveonjoy.com" l else l) :=
  ⟨by decide, by decide, rewrite_line_map _ _ _ (by decide) (by decide)⟩

/-! ### Claim C2 -/

/-- Claim C2, counterexample: with a non-empty new base that contains the old
base, the second application of the rewriter changes the content again and
reports that a change was made, so the rewrite is not idempotent for every
playlist text, old base and non-empty new base. -/
theorem rewrite_not_idempotent_cex :
    ("http://fl1.moveonjoy.com/hd" : String) ≠ "" ∧
    update_playlist ["http://fl1.moveonjoy.com/x.m3u8"]
        "http://fl1.moveonjoy.com" "http://fl1.moveonjoy.com/hd" =
      (true, ["http://fl1.moveonjoy.com/hd/x.m3u8"]) ∧
    update_playlist ["http://fl1.moveonjoy.com/hd/x.m3u8"]
        "http://fl1.moveonjoy.com" "http://fl1.moveonjoy.com/hd" =
      (true, ["http://fl1.moveonjoy.com/hd/hd/x.m3u8"]) :=
  ⟨by decide, by decide, by decide⟩

/-- Claim C2 (amended): if no line of the first application's output still
contains a case-sensitive literal occurrence of the old base, then applying
the rewriter a second time with the same bases yields the same content and
reports that no change was made. -/
theorem rewrite_second_run_noop (lines : List String) (base new : String)
    (h : ∀ l ∈ (update_playlist lines base new).2, csContains base l = false) :
    update_playlist (update_playlist lines base new).2 base new =
      (false, (update_playlist lines base new).2) :=
  update_playlist_no_gate _ _ _ h

/-- Witness for the amended claim C2 at a concrete playlist. -/
theorem rewrite_second_run_noop_witness :
    update_playlist
        (update_playlist ["http://fl1.moveonjoy.com/A.m3u8"]
          "http://fl1.moveonjoy.com" "http://fl2.moveonjoy.com").2
        "http://fl1.moveonjoy.com" "http://fl2.moveonjoy.com" =
      (false,
        (update_playlist ["http://fl1.moveonjoy.com/A.m3u8"]
          "http://fl1.moveonjoy.com" "http://fl2.moveonjoy.com").2) :=
  rewrite_second_run_noop _ _ _ (by decide)

/-! ### Claim C5 -/

/-- Claim C5, counterexample: a line consisting of slashes only is not blank,
so it survives the filter, but normalization strips all its characters, so the
returned list contains an empty string. -/
theorem load_servers_blank_slash_cex :
    load_servers ["///"] = [""] ∧ "" ∈ load_servers ["///"] :=
  ⟨by decide, by decide⟩

/-- Claim C5 (amended): loading keeps, in order, the lines that are non-blank
after whitespace trimming, each normalized by trimming whitespace and trailing
slashes; every returned entry arises that way, every kept line contributes its
normalized entry, and a normalized entry is empty exactly when the trimmed
line consists of slash characters only. -/
theorem load_servers_spec (lines : List String) :
    (load_servers lines).Sublist (lines.map (fun l => rstripSlashStr (pyStrip l))) ∧
    (∀ s ∈ load_servers lines,
      ∃ l ∈ lines, pyStrip l ≠ "" ∧ s = rstripSlashStr (pyStrip l)) ∧
    (∀ l ∈ lines, pyStrip l ≠ "" → rstripSlashStr (pyStrip l) ∈ load_servers lines) ∧
    (∀ l : String, rstripSlashStr (pyStrip l) = "" ↔ ∀ c ∈ (pyStrip l).data, c = '/') := by
  refine ⟨?_, ?_, ?_, ?_⟩
  · exact List.Sublist.map _ (List.filter_sublist lines)
  · intro s hs
    rw [load_servers, List.mem_map] at hs
    obtain ⟨l, hl, hsl⟩ := hs
    rw [List.mem_filter, decide_eq_true_eq] at hl
    exact ⟨l, hl.1, hl.2, hsl.symm⟩
  · intro l hl hne
    rw [load_servers, List.mem_map]
    exact ⟨l, List.mem_filter.mpr ⟨hl, decide_eq_true_eq.mpr hne⟩, rfl⟩
  · intro l
    constructor
    · intro he
      have hd : rstripSlashList (pyStrip l).data = [] := congrArg String.data he
      rw [rstripSlashList_eq_nil_iff] at hd
      exact hd
    · intro hall
      have hd : rstripSlashList (pyStrip l).data = [] :=
        (rstripSlashList_eq_nil_iff _).mpr hall
      show (⟨rstripSlashList (pyStrip l).data⟩ : String) = ""
      rw [hd]

/-- Witness for the amended claim C5 at a concrete server list. -/
theorem load_servers_spec_witness :
    rstripSlashStr (pyStrip "http://fl2.example.com/") ∈
      load_servers ["http://fl2.example.com/", "http://fl3.example.com"] :=
  (load_servers_spec _).2.2.1 "http://fl2.example.com/" (by decide) (by decide)

/-! ### Claim C3 -/

/-- Claim C3: under the all-paths policy, with each probe an abstract function
from URL to outcome, a candidate is accepted exactly when every channel path
probed on it returns status 200; the URLs actually probed stop at the first
path whose outcome is not status 200, skipping the remaining paths, and a
failing candidate leaves the working list exactly as probing the remaining
candidates does. -/
theorem check_paths_policy (probe : String → ProbeOutcome) (server : String)
    (paths rest acc : List String) :
    ((check_paths probe server paths).1 = true ↔
      ∀ p ∈ paths, probe (server ++ p) = ProbeOutcome.status 200) ∧
    (check_paths probe server paths).2 =
      ((paths.takeWhile fun p => decide (probe (server ++ p) = ProbeOutcome.status 200)) ++
        (paths.dropWhile fun p => decide (probe (server ++ p) = ProbeOutcome.status 200)).take 1).map
        (fun p => server ++ p) ∧
    ((check_paths probe server paths).1 = false →
      (csh_aux probe paths acc (server :: rest)).1 = (csh_aux probe paths acc rest).1) := by
  refine ⟨check_paths_true_iff probe server paths, check_paths_trace probe server paths,
    fun hf => ?_⟩
  rw [csh_aux_cons, if_neg (by simp [hf])]

/-- Witness for claim C3: a candidate failing on its second path. -/
theorem check_paths_policy_witness :
    (check_paths probeOne "S" ["/a", "/b"]).1 = false ∧
    (csh_aux probeOne ["/a", "/b"] [] ["S", "T"]).1 =
      (csh_aux probeOne ["/a", "/b"] [] ["T"]).1 :=
  ⟨by decide, (check_paths_policy probeOne "S" ["/a", "/b"] ["T"] []).2.2 (by decide)⟩

/-! ### Claim C4 -/

/-- Claim C4: the prober's output is a subsequence of the candidate list (so
an ordered sublist, possibly empty), its length never exceeds the configured
cap, the candidates actually considered form a prefix of the list, and when
probing stopped before exhausting the list the cap had been reached. -/
theorem check_server_health_cap (probe : String → ProbeOutcome)
    (servers paths : List String) :
    (check_server_health probe servers paths).Sublist servers ∧
    (check_server_health probe servers paths).length ≤ MAX_WORKING_SERVERS_TO_FIND ∧
    (csh_aux probe paths [] servers).2.1 <+: servers ∧
    ((csh_aux probe paths [] servers).2.1 ≠ servers →
      (check_server_health probe servers paths).length = MAX_WORKING_SERVERS_TO_FIND) := by
  obtain ⟨w, hw, hsub⟩ := csh_aux_working probe paths servers []
  refine ⟨?_, csh_aux_length probe paths servers [] (by decide),
    (csh_aux_considered probe paths servers [] (by decide)).1,
    (csh_aux_considered probe paths servers [] (by decide)).2⟩
  show (csh_aux probe paths [] servers).1.Sublist servers
  rw [hw, List.nil_append]
  exact hsub

/-- Witness for claim C4: with eleven always-working candidates the prober
stops early, exactly at the cap. -/
theorem check_server_health_cap_witness :
    (csh_aux probeAll200 [] [] serversEleven).2.1 ≠ serversEleven ∧
    (check_server_health probeAll200 serversEleven []).length =
      MAX_WORKING_SERVERS_TO_FIND :=
  ⟨by decide, (check_server_health_cap probeAll200 serversEleven []).2.2.2 (by decide)⟩

/-! ### Claim C6 -/

/-- Claim C6: when some playlist line matches the domain-link pattern, the
returned base is the one captured on the first matching line (stripped of
trailing slashes), and the returned paths are exactly the distinct path
suffixes captured across all matching lines, without duplicates. -/
theorem extract_first_base_and_paths (lines : List String) (l₀ b p : String)
    (h₀ : lines.find? (fun l => (lineLink l).isSome) = some l₀)
    (h₁ : lineLink l₀ = some (b, p)) :
    (extract_channel_paths lines).2 = rstripSlashStr b ∧
    (∀ q : String, q ∈ (extract_channel_paths lines).1 ↔
      ∃ l ∈ lines, ∃ b2, lineLink l = some (b2, q)) ∧
    (extract_channel_paths lines).1.Nodup := by
  have hbase : (lines.foldl extract_step ([], "")).2 = rstripSlashStr b :=
    foldl_extract_first_base lines ([], "") l₀ b p rfl h₀ h₁
  have hne : (lines.foldl extract_step ([], "")).2 ≠ "" := by
    rw [hbase]
    exact lineLink_base_ne h₁
  have hout : extract_channel_paths lines = lines.foldl extract_step ([], "") := by
    unfold extract_channel_paths
    rw [if_neg hne]
  rw [hout, hbase]
  refine ⟨rfl, fun q => ?_, foldl_extract_nodup lines ([], "") List.nodup_nil⟩
  rw [foldl_extract_mem]
  simp

/-- Witness for claim C6 at a concrete playlist. -/
theorem extract_first_base_and_paths_witness :
    (extract_channel_paths
        ["#EXTM3U", "http://fl1.moveonjoy.com/CNN/index.m3u8"]).2 =
      rstripSlashStr "http://fl1.moveonjoy.com" ∧
    (extract_channel_paths
        ["#EXTM3U", "http://fl1.moveonjoy.com/CNN/index.m3u8"]).1.Nodup :=
  ⟨(extract_first_base_and_paths _ "http://fl1.moveonjoy.com/CNN/index.m3u8"
      "http://fl1.moveonjoy.com" "/CNN/index.m3u8" (by decide) (by decide)).1,
   (extract_first_base_and_paths _ "http://fl1.moveonjoy.com/CNN/index.m3u8"
      "http://fl1.moveonjoy.com" "/CNN/index.m3u8" (by decide) (by decide)).2.2⟩

/-! ### Claim C7 -/

/-- Claim C7: when no playlist line matches the domain-link pattern,
extraction returns the empty path list and the empty base, and the whole run
aborts without writing: the playlist file content is left untouched. -/
theorem extract_no_match_aborts (probe : String → ProbeOutcome)
    (playlist serverLines : List String)
    (h : ∀ l ∈ playlist, lineLink l = none) :
    extract_channel_paths playlist = ([], "") ∧
    main_run probe playlist serverLines = (false, playlist) := by
  have hfold : playlist.foldl extract_step ([], "") = ([], "") :=
    foldl_extract_no_match playlist ([], "") h
  have hex : extract_channel_paths playlist = ([], "") := by
    unfold extract_channel_paths
    rw [hfold]
    rfl
  refine ⟨hex, ?_⟩
  unfold main_run
  rw [hex]
  rfl

/-- Witness for claim C7 at a concrete playlist with no domain link. -/
theorem extract_no_match_aborts_witness :
    extract_channel_paths ["#EXTM3U"] = ([], "") ∧
    main_run probeNone ["#EXTM3U"] ["http://fl9.moveonjoy.com"] =
      (false, ["#EXTM3U"]) :=
  extract_no_match_aborts probeNone _ _ (by decide)

/-! ### Claim C8 -/

/-- Claim C8: the rewriter returns false and leaves the content untouched
when either base is empty; its returned flag is true exactly when both bases
are non-empty and some line, containing the old base, is actually changed by
the substitution; and whenever the flag is false the content is untouched, so
the file is written back exactly when the flag is true. -/
theorem update_playlist_guard_and_write (lines : List String) (base new : String) :
    (new = "" ∨ base = "" → update_playlist lines base new = (false, lines)) ∧
    ((update_playlist lines base new).1 = true ↔
      new ≠ "" ∧ base ≠ "" ∧
        ∃ l ∈ lines, csContains base l = true ∧ isub base new l ≠ l) ∧
    ((update_playlist lines base new).1 = false →
      (update_playlist lines base new).2 = lines) := by
  refine ⟨?_, ?_, ?_⟩
  · intro h
    unfold update_playlist
    rw [if_pos h]
  · unfold update_playlist
    by_cases hg : new = "" ∨ base = ""
    · rw [if_pos hg]
      constructor
      · intro hh
        exact absurd hh (by simp)
      · rintro ⟨hn, hb, _⟩
        rcases hg with hg | hg
        · exact absurd hg hn
        · exact absurd hg hb
    · rw [if_neg hg]
      rw [not_or] at hg
      show (if (upd_aux base new lines).2 = true then (true, (upd_aux base new lines).1)
            else (false, lines)).1 = true ↔ _
      cases hflag : (upd_aux base new lines).2
      · simp only [Bool.false_eq_true, if_false]
        constructor
        · intro hh
          exact absurd hh (by simp)
        · rintro ⟨_, _, hex⟩
          have : (upd_aux base new lines).2 = true := (upd_aux_flag_iff base new lines).mpr hex
          rw [hflag] at this
          exact absurd this (by simp)
      · simp only [if_true]
        constructor
        · intro _
          exact ⟨hg.1, hg.2, (upd_aux_flag_iff base new lines).mp hflag⟩
        · intro _
          trivial
  · unfold update_playlist
    split
    · intro _
      rfl
    · show (if (upd_aux base new lines).2 = true then (true, (upd_aux base new lines).1)
            else (false, lines)).1 = false →
        (if (upd_aux base new lines).2 = true then (true, (upd_aux base new lines).1)
            else (false, lines)).2 = lines
      cases hflag : (upd_aux base new lines).2
      · intro _
        rfl
      · intro hh
        exact absurd hh (by simp)

/-- Witness for claim C8: the empty-base abort and the write condition at a
concrete playlist. -/
theorem update_playlist_guard_and_write_witness :
    update_playlist ["http://fl1.moveonjoy.com/A.m3u8"] "http://fl1.moveonjoy.com" "" =
      (false, ["http://fl1.moveonjoy.com/A.m3u8"]) ∧
    ((update_playlist ["http://fl1.moveonjoy.com/A.m3u8"]
        "http://fl1.moveonjoy.com" "http://fl2.moveonjoy.com").1 = true ↔
      ("http://fl2.moveonjoy.com" : String) ≠ "" ∧
      ("http://fl1.moveonjoy.com" : String) ≠ "" ∧
      ∃ l ∈ ["http://fl1.moveonjoy.com/A.m3u8"],
        csContains "http://fl1.moveonjoy.com" l = true ∧
        isub "http://fl1.moveonjoy.com" "http://fl2.moveonjoy.com" l ≠ l) :=
  ⟨(update_playlist_guard_and_write _ _ _).1 (Or.inl rfl),
   (update_playlist_guard_and_write _ _ _).2.1⟩

/-! ### Claim C9 -/

/-- Claim C9: the rewriter's final content has exactly as many lines as the
input, in the same order, and every line without a literal occurrence of the
old base is preserved byte for byte. -/
theorem rewrite_frame_preservation (lines : List String) (base new : String) :
    (update_playlist lines base new).2.length = lines.length ∧
    List.Forall₂ (fun a b2 => csContains base a = false → b2 = a) lines
      (update_playlist lines base new).2 := by
  unfold update_playlist
  split
  · exact ⟨rfl, List.forall₂_same.mpr (fun x _ _ => rfl)⟩
  · show ((if (upd_aux base new lines).2 = true then (true, (upd_aux base new lines).1)
          else (false, lines)).2).length = _ ∧
      List.Forall₂ _ lines
        (if (upd_aux base new lines).2 = true then (true, (upd_aux base new lines).1)
          else (false, lines)).2
    cases hflag : (upd_aux base new lines).2
    · exact ⟨rfl, List.forall₂_same.mpr (fun x _ _ => rfl)⟩
    · simp only [if_true]
      rw [upd_aux_fst]
      refine ⟨List.length_map _ _, List.forall₂_map_right_iff.mpr
        (List.forall₂_same.mpr (fun x _ hx => ?_))⟩
      rw [if_neg (by simp [hx])]

/-- Witness for claim C9 at a concrete playlist. -/
theorem rewrite_frame_preservation_witness :
    (update_playlist ["#EXTM3U"] "http://fl1.moveonjoy.com"
        "http://fl2.moveonjoy.com").2.length = (["#EXTM3U"] : List String).length ∧
    List.Forall₂ (fun a b2 => csContains "http://fl1.moveonjoy.com" a = false → b2 = a)
      ["#EXTM3U"]
      (update_playlist ["#EXTM3U"] "http://fl1.moveonjoy.com"
        "http://fl2.moveonjoy.com").2 :=
  rewrite_frame_preservation _ _ _

/-! ### Claim C10 -/

/-- Claim C10: with an empty channel-path set every candidate passes its
health check vacuously, no probe is issued at all, and the prober returns the
first candidates up to the cap. -/
theorem check_server_health_no_paths (probe : String → ProbeOutcome)
    (servers : List String) :
    (∀ s : String, check_paths probe s [] = (true, [])) ∧
    check_server_health probe servers [] =
      servers.take MAX_WORKING_SERVERS_TO_FIND ∧
    (csh_aux probe [] [] servers).2.2 = [] := by
  have h := csh_aux_no_paths probe servers [] (by decide)
  refine ⟨fun _ => rfl, ?_, ?_⟩
  · show (csh_aux probe [] [] servers).1 = _
    rw [h]
    simp
  · rw [h]

/-- Witness for claim C10 at a concrete candidate list. -/
theorem check_server_health_no_paths_witness :
    check_server_health probeNone
        ["http://fl2.moveonjoy.com", "http://fl3.moveonjoy.com"] [] =
      (["http://fl2.moveonjoy.com", "http://fl3.moveonjoy.com"] :
        List String).take MAX_WORKING_SERVERS_TO_FIND :=
  (check_server_health_no_paths probeNone _).2.1
